import Mathlib

/-!
Verification of the semiconductor yield data generation pipeline
(`backend/services/data_generator.py`) and its timing/metrics
infrastructure (`backend/services/metrics_logger.py`).

The Python code is shallowly embedded: Python `int` becomes `ℤ`
(loop ranges mirror Python `range`, which is empty for non-positive
spans), floating point values become `ℚ` (NumPy float64 arithmetic on
the values used here — normal draws, clipping, rounding to 2 decimal
places — is modelled exactly over the rationals), and the source of
randomness (`np.random.normal`) becomes an explicit stream of draws
`draws : ℕ → ℚ` supplied as a parameter.  NumPy's `round` and Python's
built-in `round` both round half to even, embedded as `roundHalfEven`.
-/

/-- Python `range(a, b)`: the integers `a, a+1, ..., b-1`; empty when `b ≤ a`. -/
def pyRange (a b : ℤ) : List ℤ :=
  (List.range (b - a).toNat).map (fun (k : ℕ) => a + (k : ℤ))

/-- Little-endian decimal digits of `n` (so `123 ↦ [3, 2, 1]`), with `0 ↦ []`.
The first argument is structural-recursion fuel, instantiated with `n` itself. -/
def decDigitsAux : ℕ → ℕ → List ℕ
  | _, 0 => []
  | 0, _ + 1 => []
  | fuel + 1, n + 1 => ((n + 1) % 10) :: decDigitsAux fuel ((n + 1) / 10)

/-- Little-endian decimal digits of `n`, with `0 ↦ [0]` (as in Python `str(0) = "0"`). -/
def decDigits (n : ℕ) : List ℕ :=
  if n = 0 then [0] else decDigitsAux n n

/-- Decimal character list of `n`, most significant digit first: Python `str(n)` for `n : ℕ`. -/
def decimalChars (n : ℕ) : List Char :=
  ((decDigits n).map Nat.digitChar).reverse

/-- Zero padding to a minimum width, as in Python format `f"{n:04d}"` on a
non-negative number: prepend `'0'` until the width is at least `w`. -/
def zfillChars (w : ℕ) (l : List Char) : List Char :=
  List.replicate (w - l.length) '0' ++ l

/-- Lot id, Python `f"L{lot_counter:04d}"`. -/
def formatLotId (n : ℕ) : String :=
  String.mk ('L' :: zfillChars 4 (decimalChars n))

/-- Wafer id, Python `f"W{wafer:02d}"`. -/
def formatWaferId (n : ℕ) : String :=
  String.mk ('W' :: zfillChars 2 (decimalChars n))

/-- Numeric value of a decimal digit character. -/
def digitVal (c : Char) : ℕ := c.toNat - 48

/-- Value of a most-significant-first decimal character list. -/
def charsVal (l : List Char) : ℕ :=
  l.foldl (fun v c => v * 10 + digitVal c) 0

/-- Value of a little-endian digit list. -/
def lsbVal (l : List ℕ) : ℕ :=
  l.foldr (fun d v => d + 10 * v) 0

/-- Floor of a rational, `q.num / q.den` (equals `⌊q⌋`, see `qfloor_eq_floor`). -/
def qfloor (q : ℚ) : ℤ := q.num / q.den

/-- Round to the nearest integer, ties to even: the rounding rule of both
NumPy `np.round` and Python's built-in `round`. -/
def roundHalfEven (x : ℚ) : ℤ :=
  if x - (qfloor x : ℚ) < 1/2 then qfloor x
  else if 1/2 < x - (qfloor x : ℚ) then qfloor x + 1
  else if qfloor x % 2 = 0 then qfloor x else qfloor x + 1

/-- `np.round(x, 2)` (also Python `round(x, 2)`): round half to even at 2 decimals. -/
def round2 (x : ℚ) : ℚ := (roundHalfEven (x * 100) : ℚ) / 100

/-- `np.clip(a, lo, hi) = np.minimum(np.maximum(a, lo), hi)`. -/
def npClip (a lo hi : ℚ) : ℚ := min (max a lo) hi

-- basic facts about the decimal formatting helpers

theorem digitVal_digitChar : ∀ d : ℕ, d < 10 → digitVal (Nat.digitChar d) = d := by
  decide

theorem lsbVal_decDigitsAux : ∀ fuel n : ℕ, n ≤ fuel → lsbVal (decDigitsAux fuel n) = n := by
  intro fuel
  induction fuel with
  | zero =>
    intro n hn
    interval_cases n
    rfl
  | succ fuel ih =>
    intro n hn
    match n with
    | 0 => rfl
    | n + 1 =>
      have hdiv : (n + 1) / 10 ≤ fuel := by
        have : (n + 1) / 10 < n + 1 := Nat.div_lt_self (Nat.succ_pos n) (by norm_num)
        omega
      have := ih ((n + 1) / 10) hdiv
      simp only [decDigitsAux, lsbVal, List.foldr] at this ⊢
      rw [this]
      omega

theorem lsbVal_decDigits (n : ℕ) : lsbVal (decDigits n) = n := by
  unfold decDigits
  split
  · simp_all [lsbVal]
  · exact lsbVal_decDigitsAux n n le_rfl

theorem decDigitsAux_lt_ten : ∀ fuel n d : ℕ, d ∈ decDigitsAux fuel n → d < 10 := by
  intro fuel
  induction fuel with
  | zero =>
    intro n d hd
    match n with
    | 0 => simp [decDigitsAux] at hd
    | _ + 1 => simp [decDigitsAux] at hd
  | succ fuel ih =>
    intro n d hd
    match n with
    | 0 => simp [decDigitsAux] at hd
    | m + 1 =>
      simp only [decDigitsAux, List.mem_cons] at hd
      rcases hd with h | h
      · subst h; exact Nat.mod_lt _ (by norm_num)
      · exact ih _ _ h

theorem decDigits_lt_ten (n d : ℕ) (hd : d ∈ decDigits n) : d < 10 := by
  unfold decDigits at hd
  split at hd
  · simp at hd; omega
  · exact decDigitsAux_lt_ten n n d hd

theorem charsVal_rev_map_digitChar :
    ∀ ds : List ℕ, (∀ d ∈ ds, d < 10) →
      charsVal ((ds.map Nat.digitChar).reverse) = lsbVal ds := by
  intro ds
  induction ds with
  | nil => intro _; rfl
  | cons d t ih =>
    intro h
    have hd : d < 10 := h d (List.mem_cons_self d t)
    have ht : ∀ x ∈ t, x < 10 := fun x hx => h x (List.mem_cons_of_mem d hx)
    simp only [List.map_cons, List.reverse_cons, charsVal, List.foldl_append, List.foldl_cons,
      List.foldl_nil, lsbVal, List.foldr_cons]
    have := ih ht
    simp only [charsVal, lsbVal] at this
    rw [this, digitVal_digitChar d hd]
    ring

theorem charsVal_decimalChars (n : ℕ) : charsVal (decimalChars n) = n := by
  unfold decimalChars
  rw [charsVal_rev_map_digitChar _ (decDigits_lt_ten n), lsbVal_decDigits]

theorem charsVal_zfill (w : ℕ) (l : List Char) :
    charsVal (zfillChars w l) = charsVal l := by
  unfold zfillChars charsVal
  rw [List.foldl_append]
  congr 1
  generalize w - l.length = k
  induction k with
  | zero => rfl
  | succ k ih =>
    rw [List.replicate_succ, List.foldl_cons]
    simpa [digitVal] using ih

theorem formatLotId_injective : Function.Injective formatLotId := by
  intro m n h
  unfold formatLotId at h
  have hl : zfillChars 4 (decimalChars m) = zfillChars 4 (decimalChars n) := by
    have := congrArg String.data h
    simpa using this
  have := congrArg charsVal hl
  rwa [charsVal_zfill, charsVal_zfill, charsVal_decimalChars, charsVal_decimalChars] at this

theorem formatWaferId_injective : Function.Injective formatWaferId := by
  intro m n h
  unfold formatWaferId at h
  have hl : zfillChars 2 (decimalChars m) = zfillChars 2 (decimalChars n) := by
    have := congrArg String.data h
    simpa using this
  have := congrArg charsVal hl
  rwa [charsVal_zfill, charsVal_zfill, charsVal_decimalChars, charsVal_decimalChars] at this

-- facts about qfloor and rounding

theorem qfloor_eq_floor (q : ℚ) : qfloor q = ⌊q⌋ := (Rat.floor_def).symm

theorem roundHalfEven_bounds {a b : ℤ} {x : ℚ} (ha : (a : ℚ) ≤ x) (hb : x ≤ (b : ℚ)) :
    a ≤ roundHalfEven x ∧ roundHalfEven x ≤ b := by
  unfold roundHalfEven
  rw [qfloor_eq_floor]
  have hfa : a ≤ ⌊x⌋ := by
    rw [Int.le_floor]; exact ha
  have hfb : ⌊x⌋ ≤ b := by
    have : (⌊x⌋ : ℚ) ≤ (b : ℚ) := le_trans (Int.floor_le x) hb
    exact_mod_cast this
  have hfloor_le : (⌊x⌋ : ℚ) ≤ x := Int.floor_le x
  constructor
  · -- lower bound: every branch returns at least ⌊x⌋
    split
    · exact hfa
    · split
      · omega
      · split <;> omega
  · -- upper bound
    split
    · exact hfb
    · -- in the remaining branches the fractional part is at least 1/2,
      -- so ⌊x⌋ + 1/2 ≤ x ≤ b forces ⌊x⌋ + 1 ≤ b
      next hnot =>
      have hge : 1/2 ≤ x - (⌊x⌋ : ℚ) := le_of_not_lt hnot
      have hlt : (⌊x⌋ : ℚ) + 1/2 ≤ (b : ℚ) := by linarith
      have hne : ⌊x⌋ < b := by
        rcases lt_or_eq_of_le hfb with h | h
        · exact h
        · exfalso
          rw [h] at hlt
          linarith
      split
      · omega
      · split <;> omega

theorem round2_mem_range {x : ℚ} (h1 : (70 : ℚ) ≤ x) (h2 : x ≤ (199 : ℚ)/2) :
    (70 : ℚ) ≤ round2 x ∧ round2 x ≤ (199 : ℚ)/2 := by
  have ha : ((7000 : ℤ) : ℚ) ≤ x * 100 := by push_cast; linarith
  have hb : x * 100 ≤ ((9950 : ℤ) : ℚ) := by push_cast; linarith
  obtain ⟨hl, hr⟩ := roundHalfEven_bounds ha hb
  unfold round2
  constructor
  · have h : (7000 : ℚ) ≤ (roundHalfEven (x * 100) : ℚ) := by exact_mod_cast hl
    linarith
  · have h : (roundHalfEven (x * 100) : ℚ) ≤ (9950 : ℚ) := by exact_mod_cast hr
    linarith

theorem npClip_mem_range (x : ℚ) :
    (70 : ℚ) ≤ npClip x 70 ((199 : ℚ)/2) ∧ npClip x 70 ((199 : ℚ)/2) ≤ (199 : ℚ)/2 := by
  unfold npClip
  constructor
  · apply le_min
    · exact le_max_right x 70
    · norm_num
  · exact min_le_right _ _

-- the data model of `data_generator.py`

/-- The four constructor parameters of `SemiconductorDataGenerator`
(`year`, `weeks_per_year`, `lots_per_week`, `wafers_per_lot`), Python ints.
The constructor performs no validation. -/
structure GenerationParameters where
  year : ℤ
  weeks_per_year : ℤ
  lots_per_week : ℤ
  wafers_per_lot : ℤ
deriving DecidableEq, Repr

/-- One row of the four identifier arrays built by the `array_generation`
stage (the lists `lot_ids`, `wafer_ids`, `years`, `week_nos` grow in
lockstep, so they are modelled as one list of rows). -/
structure RowIds where
  lot_id : String
  wafer_id : String
  year : ℤ
  week_no : ℤ
deriving DecidableEq, Repr, Inhabited

/-- One row of the generated DataFrame (columns
`Lot_id`, `Wafer_id`, `Year`, `Week_no`, `Yield`). -/
structure YieldRecord where
  lot_id : String
  wafer_id : String
  year : ℤ
  week_no : ℤ
  yieldPct : ℚ
deriving DecidableEq, Repr, Inhabited

/-- The inner wafer loop `for wafer in range(1, self.wafers_per_lot + 1)`:
one appended row per wafer index.  The loop variable is a positive Python
int; it is formatted through `toNat`. -/
def waferLoop (lot_id : String) (year week wafers : ℤ) : List RowIds :=
  (pyRange 1 (wafers + 1)).map
    (fun wafer => ⟨lot_id, formatWaferId wafer.toNat, year, week⟩)

/-- The middle loop `for _ in range(self.lots_per_week)`: each iteration
formats the current `lot_counter`, emits the wafer rows and increments the
counter.  The state is (rows so far, lot_counter). -/
def lotLoop (p : GenerationParameters) (week : ℤ) (st : List RowIds × ℕ) :
    List RowIds × ℕ :=
  (pyRange 0 p.lots_per_week).foldl
    (fun st2 _ =>
      (st2.1 ++ waferLoop (formatLotId st2.2) p.year week p.wafers_per_lot,
       st2.2 + 1))
    st

/-- The identifier-array part of `generate_dataframe`: the outer loop
`for week in range(1, self.weeks_per_year + 1)` over the lot loop,
starting from empty rows and `lot_counter = 1`. -/
def generateRows (p : GenerationParameters) : List RowIds :=
  ((pyRange 1 (p.weeks_per_year + 1)).foldl (fun st week => lotLoop p week st)
    ([], 1)).1

/-- `total_points = total_lots * wafers_per_lot` with
`total_lots = weeks_per_year * lots_per_week`. -/
def total_points (p : GenerationParameters) : ℤ :=
  p.weeks_per_year * p.lots_per_week * p.wafers_per_lot

/-- One generated yield value: a normal draw `x` put through
`np.clip(yields, 70.0, 99.5)` and then `np.round(yields, 2)` — clamp
before round, exactly as in the source. -/
def yieldOfDraw (x : ℚ) : ℚ := round2 (npClip x 70 ((199 : ℚ)/2))

/-- The `yield_generation` stage:
`np.random.normal(mean, std, total_points)` modelled as the first
`total_points` values of the draw stream, then vectorized clip and round.
(NumPy rejects a negative size; the model is used with parameters whose
product is non-negative.) -/
def yieldsArray (p : GenerationParameters) (draws : ℕ → ℚ) : List ℚ :=
  ((((List.range (total_points p).toNat).map draws).map
      (fun x => npClip x 70 ((199 : ℚ)/2))).map round2)

/-- `generate_dataframe`: the DataFrame pairs the identifier arrays with the
yields array column-wise. -/
def generate_dataframe (p : GenerationParameters) (draws : ℕ → ℚ) :
    List YieldRecord :=
  ((generateRows p).zip (yieldsArray p draws)).map
    (fun ry => ⟨ry.1.lot_id, ry.1.wafer_id, ry.1.year, ry.1.week_no, ry.2⟩)

-- closed forms of the generation loops

/-- The identifier row at flat index `k` (week-major, then lot, then wafer):
lot counter `k / F + 1`, wafer index `k % F + 1`, week `k / (M * F) + 1`,
where `M` and `F` are the per-week lot count and per-lot wafer count. -/
def rowAt (p : GenerationParameters) (k : ℕ) : RowIds :=
  ⟨formatLotId (k / p.wafers_per_lot.toNat + 1),
   formatWaferId (k % p.wafers_per_lot.toNat + 1),
   p.year,
   1 + ((k / (p.lots_per_week.toNat * p.wafers_per_lot.toNat) : ℕ) : ℤ)⟩

/-- The full record at flat index `k`. -/
def recordAt (p : GenerationParameters) (draws : ℕ → ℚ) (k : ℕ) : YieldRecord :=
  ⟨(rowAt p k).lot_id, (rowAt p k).wafer_id, (rowAt p k).year,
   (rowAt p k).week_no, yieldOfDraw (draws k)⟩

theorem pyRange_length (a b : ℤ) : (pyRange a b).length = (b - a).toNat := by
  unfold pyRange
  rw [List.length_map, List.length_range]

theorem waferLoop_eq (lot_id : String) (year week wafers : ℤ) :
    waferLoop lot_id year week wafers =
      (List.range wafers.toNat).map
        (fun f => ⟨lot_id, formatWaferId (f + 1), year, week⟩) := by
  unfold waferLoop pyRange
  have hlen : (wafers + 1 - 1).toNat = wafers.toNat := by omega
  rw [hlen, List.map_map]
  apply List.map_congr_left
  intro f _
  simp only [Function.comp_apply]
  have h1 : (1 + (f : ℤ)).toNat = f + 1 := by omega
  rw [h1]

/-- The wafer block of the lot with counter value `c`. -/
def waferBlock (p : GenerationParameters) (week : ℤ) (c : ℕ) : List RowIds :=
  (List.range p.wafers_per_lot.toNat).map
    (fun f => ⟨formatLotId c, formatWaferId (f + 1), p.year, week⟩)

theorem lotLoop_eq (p : GenerationParameters) (week : ℤ) :
    ∀ (l : List ℤ) (rows : List RowIds) (c : ℕ),
      (l.foldl (fun st2 (_ : ℤ) =>
          (st2.1 ++ waferLoop (formatLotId st2.2) p.year week p.wafers_per_lot,
           st2.2 + 1)) (rows, c)) =
        (rows ++ (List.range l.length).flatMap (fun i => waferBlock p week (c + i)),
         c + l.length) := by
  intro l
  induction l with
  | nil => intro rows c; simp
  | cons x t ih =>
    intro rows c
    rw [List.foldl_cons, ih]
    simp only [List.length_cons]
    rw [List.range_succ_eq_map, List.flatMap_cons, List.flatMap_map]
    rw [Prod.mk.injEq]
    refine ⟨?_, by omega⟩
    rw [List.append_assoc]
    congr 1
    congr 1
    · rw [waferLoop_eq, Nat.add_zero]
      rfl
    · apply List.flatMap_congr
      intro i _
      congr 1
      omega

theorem block_div (a b F : ℕ) (h : b < F) : (a * F + b) / F = a := by
  have hF : 0 < F := by omega
  rw [Nat.mul_comm a F, Nat.mul_add_div hF, Nat.div_eq_of_lt h]
  omega

theorem block_mod (a b F : ℕ) (h : b < F) : (a * F + b) % F = b := by
  rw [Nat.mul_comm a F, Nat.mul_add_mod]
  exact Nat.mod_eq_of_lt h

theorem lotLoop_closed (p : GenerationParameters) (week : ℤ) (rows : List RowIds)
    (c : ℕ) :
    lotLoop p week (rows, c) =
      (rows ++ (List.range p.lots_per_week.toNat).flatMap
          (fun i => waferBlock p week (c + i)),
       c + p.lots_per_week.toNat) := by
  unfold lotLoop
  rw [lotLoop_eq, pyRange_length]
  simp only [sub_zero]

theorem generateRows_loop_eq (p : GenerationParameters) :
    ∀ n : ℕ,
      (List.range n).foldl (fun st (k : ℕ) => lotLoop p (1 + (k : ℤ)) st) ([], 1) =
        ((List.range n).flatMap (fun k =>
            (List.range p.lots_per_week.toNat).flatMap (fun l =>
              waferBlock p (1 + (k : ℤ)) (1 + k * p.lots_per_week.toNat + l))),
         1 + n * p.lots_per_week.toNat) := by
  intro n
  induction n with
  | zero => simp
  | succ n ih =>
    rw [List.range_succ, List.foldl_append, ih, List.foldl_cons, List.foldl_nil,
      lotLoop_closed, List.flatMap_append, List.flatMap_cons, List.flatMap_nil,
      List.append_nil]
    rw [Prod.mk.injEq]
    refine ⟨rfl, by ring⟩

theorem generateRows_unflattened (p : GenerationParameters) :
    generateRows p =
      (List.range p.weeks_per_year.toNat).flatMap (fun k =>
        (List.range p.lots_per_week.toNat).flatMap (fun l =>
          waferBlock p (1 + (k : ℤ)) (1 + k * p.lots_per_week.toNat + l))) := by
  unfold generateRows pyRange
  have hlen : (p.weeks_per_year + 1 - 1).toNat = p.weeks_per_year.toNat := by omega
  rw [hlen, List.foldl_map, generateRows_loop_eq]

/-- Flattening two nested ranges into one: binding blocks of m consecutive
values of g over an outer range of length n yields the first n*m values. -/
theorem flatMap_range_map {α : Type} (g : ℕ → α) (n m : ℕ) :
    (List.range n).flatMap (fun i => (List.range m).map (fun j => g (i * m + j))) =
      (List.range (n * m)).map g := by
  induction n with
  | zero => simp
  | succ n ih =>
    rw [List.range_succ, List.flatMap_append, ih, List.flatMap_cons, List.flatMap_nil,
      List.append_nil]
    have hnm : (n + 1) * m = n * m + m := by ring
    rw [hnm, List.range_add, List.map_append, List.map_map]
    rfl

theorem generateRows_eq (p : GenerationParameters) :
    generateRows p =
      (List.range (p.weeks_per_year.toNat *
        (p.lots_per_week.toNat * p.wafers_per_lot.toNat))).map (rowAt p) := by
  rw [generateRows_unflattened]
  rw [← flatMap_range_map (rowAt p) p.weeks_per_year.toNat
    (p.lots_per_week.toNat * p.wafers_per_lot.toNat)]
  apply List.flatMap_congr
  intro k _
  rw [← flatMap_range_map
    (fun j => rowAt p (k * (p.lots_per_week.toNat * p.wafers_per_lot.toNat) + j))
    p.lots_per_week.toNat p.wafers_per_lot.toNat]
  apply List.flatMap_congr
  intro l hl
  unfold waferBlock
  apply List.map_congr_left
  intro f hf
  have hF : f < p.wafers_per_lot.toNat := List.mem_range.mp hf
  have hlM0 : l < p.lots_per_week.toNat := List.mem_range.mp hl
  unfold rowAt
  set M := p.lots_per_week.toNat
  set F := p.wafers_per_lot.toNat
  have harg : k * (M * F) + (l * F + f) = (k * M + l) * F + f := by ring
  have hbound : l * F + f < M * F := by
    calc l * F + f < l * F + F := by omega
      _ = (l + 1) * F := by ring
      _ ≤ M * F := Nat.mul_le_mul_right F hlM0
  have hdiv : ((k * M + l) * F + f) / F = k * M + l := block_div _ _ _ hF
  have hmod : ((k * M + l) * F + f) % F = f := block_mod _ _ _ hF
  have hdivMF : (k * (M * F) + (l * F + f)) / (M * F) = k := block_div _ _ _ hbound
  rw [RowIds.mk.injEq]
  refine ⟨?_, ?_, rfl, ?_⟩
  · congr 1
    rw [harg, hdiv]
    omega
  · congr 1
    rw [harg, hmod]
  · rw [hdivMF]

theorem toNat_mul_of_nonneg {a b : ℤ} (ha : 0 ≤ a) (hb : 0 ≤ b) :
    (a * b).toNat = a.toNat * b.toNat := by
  rcases Int.eq_ofNat_of_zero_le ha with ⟨m, rfl⟩
  rcases Int.eq_ofNat_of_zero_le hb with ⟨n, rfl⟩
  rw [← Int.natCast_mul, Int.toNat_ofNat, Int.toNat_ofNat, Int.toNat_ofNat]

theorem total_points_toNat (p : GenerationParameters)
    (hw : 0 ≤ p.weeks_per_year) (hl : 0 ≤ p.lots_per_week)
    (hf : 0 ≤ p.wafers_per_lot) :
    (total_points p).toNat =
      p.weeks_per_year.toNat * (p.lots_per_week.toNat * p.wafers_per_lot.toNat) := by
  unfold total_points
  rw [toNat_mul_of_nonneg (by positivity) hf, toNat_mul_of_nonneg hw hl]
  ring

theorem yieldsArray_eq (p : GenerationParameters) (draws : ℕ → ℚ) :
    yieldsArray p draws =
      (List.range (total_points p).toNat).map (fun k => yieldOfDraw (draws k)) := by
  unfold yieldsArray yieldOfDraw
  rw [List.map_map, List.map_map]
  rfl

theorem generate_dataframe_eq (p : GenerationParameters) (draws : ℕ → ℚ)
    (hw : 0 ≤ p.weeks_per_year) (hl : 0 ≤ p.lots_per_week)
    (hf : 0 ≤ p.wafers_per_lot) :
    generate_dataframe p draws =
      (List.range (p.weeks_per_year.toNat *
        (p.lots_per_week.toNat * p.wafers_per_lot.toNat))).map
        (recordAt p draws) := by
  unfold generate_dataframe
  rw [generateRows_eq, yieldsArray_eq, total_points_toNat p hw hl hf,
    List.zip_map', List.map_map]
  rfl

/-- C1: for every GenerationParameters with year, weeksPerYear, lotsPerWeek
and wafersPerLot all positive, `generate_dataframe` produces exactly
weeksPerYear × lotsPerWeek × wafersPerLot rows (for every draw stream). -/
theorem C1_record_count (p : GenerationParameters) (draws : ℕ → ℚ)
    (hy : 0 < p.year) (hw : 0 < p.weeks_per_year) (hl : 0 < p.lots_per_week)
    (hf : 0 < p.wafers_per_lot) :
    ((generate_dataframe p draws).length : ℤ) =
      p.weeks_per_year * p.lots_per_week * p.wafers_per_lot := by
  rw [generate_dataframe_eq p draws hw.le hl.le hf.le, List.length_map,
    List.length_range]
  push_cast
  rw [Int.toNat_of_nonneg hw.le, Int.toNat_of_nonneg hl.le,
    Int.toNat_of_nonneg hf.le]
  ring

theorem C1_record_count_witness :
    (0 : ℤ) < 2025 ∧ (0 : ℤ) < 2 ∧ (0 : ℤ) < 3 ∧ (0 : ℤ) < 4 ∧
    ((generate_dataframe ⟨2025, 2, 3, 4⟩ (fun _ => 92)).length : ℤ) = 2 * 3 * 4 :=
  ⟨by norm_num, by norm_num, by norm_num, by norm_num,
   C1_record_count ⟨2025, 2, 3, 4⟩ (fun _ => 92) (by norm_num) (by norm_num)
     (by norm_num) (by norm_num)⟩

/-- C2: every stored yield value is a normal draw clamped to [70.0, 99.5]
and then rounded to 2 decimal places (in that order), so it lies in
[70.0, 99.5] and has at most 2 decimal digits (an integer multiple of
1/100). -/
theorem C2_yield_clamp_round (p : GenerationParameters) (draws : ℕ → ℚ)
    (r : YieldRecord) (hr : r ∈ generate_dataframe p draws) :
    (∃ x : ℚ, r.yieldPct = round2 (npClip x 70 ((199 : ℚ)/2))) ∧
    (70 : ℚ) ≤ r.yieldPct ∧ r.yieldPct ≤ (199 : ℚ)/2 ∧
    ∃ n : ℤ, r.yieldPct = (n : ℚ) / 100 := by
  unfold generate_dataframe at hr
  rw [List.mem_map] at hr
  obtain ⟨ry, hzip, hre⟩ := hr
  have h2 := (List.of_mem_zip hzip).2
  unfold yieldsArray at h2
  rw [List.mem_map] at h2
  obtain ⟨y0, hy0, h2e⟩ := h2
  rw [List.mem_map] at hy0
  obtain ⟨x0, _, hy0e⟩ := hy0
  have hyp : r.yieldPct = round2 (npClip x0 70 ((199 : ℚ)/2)) := by
    rw [← hre]
    show ry.2 = _
    rw [← h2e, ← hy0e]
  obtain ⟨hcl, hcu⟩ := npClip_mem_range x0
  obtain ⟨hrl, hru⟩ := round2_mem_range hcl hcu
  refine ⟨⟨x0, hyp⟩, ?_, ?_, ?_⟩
  · rw [hyp]; exact hrl
  · rw [hyp]; exact hru
  · exact ⟨roundHalfEven (npClip x0 70 ((199 : ℚ)/2) * 100), by rw [hyp]; rfl⟩

/-- Parameters and draw stream used by the concrete witnesses: one week,
one lot, one wafer, constant draw 92. -/
def pW : GenerationParameters := ⟨2025, 1, 1, 1⟩

def dW : ℕ → ℚ := fun _ => 92

theorem C2_yield_clamp_round_witness :
    recordAt pW dW 0 ∈ generate_dataframe pW dW ∧
    ((∃ x : ℚ, (recordAt pW dW 0).yieldPct = round2 (npClip x 70 ((199 : ℚ)/2))) ∧
     (70 : ℚ) ≤ (recordAt pW dW 0).yieldPct ∧
     (recordAt pW dW 0).yieldPct ≤ (199 : ℚ)/2 ∧
     ∃ n : ℤ, (recordAt pW dW 0).yieldPct = (n : ℚ) / 100) := by
  have hmem : recordAt pW dW 0 ∈ generate_dataframe pW dW := by
    rw [generate_dataframe_eq pW dW (by norm_num [pW]) (by norm_num [pW])
      (by norm_num [pW])]
    exact List.mem_map_of_mem _ (by simp [pW])
  exact ⟨hmem, C2_yield_clamp_round pW dW _ hmem⟩

-- the box-plot statistics of `generate_boxplot_data`

/-- `np.min` on a non-empty list (the empty case never occurs in the code;
the 0 default is arbitrary). -/
def npMin : List ℚ → ℚ
  | [] => 0
  | a :: t => t.foldl min a

/-- `np.max` on a non-empty list. -/
def npMax : List ℚ → ℚ
  | [] => 0
  | a :: t => t.foldl max a

/-- Linear interpolation into a sorted list at virtual index `pos`
(NumPy's default percentile interpolation): with `i = ⌊pos⌋` and
`g = pos - i`, the value is `s[i] + g*(s[i+1] - s[i])`, clipped to the
last element when `i` is the final index. -/
def interpAt (s : List ℚ) (pos : ℚ) : ℚ :=
  if (qfloor pos).toNat + 1 < s.length then
    s.getD (qfloor pos).toNat 0 +
      (pos - ((qfloor pos).toNat : ℚ)) *
        (s.getD ((qfloor pos).toNat + 1) 0 - s.getD (qfloor pos).toNat 0)
  else s.getD (s.length - 1) 0

/-- `np.percentile(l, q)` with the default linear interpolation: sort, then
interpolate at virtual index `q/100 * (n - 1)`. -/
def npPercentile (l : List ℚ) (q : ℚ) : ℚ :=
  interpAt (List.insertionSort (· ≤ ·) l)
    (q / 100 * (((List.insertionSort (· ≤ ·) l).length : ℚ) - 1))

/-- `np.median l`, which for linear interpolation coincides with the 50th
percentile (mean of the two middle elements for even length). -/
def npMedian (l : List ℚ) : ℚ := npPercentile l 50

theorem foldl_min_le : ∀ (t : List ℚ) (a x : ℚ), x = a ∨ x ∈ t → t.foldl min a ≤ x := by
  intro t
  induction t with
  | nil =>
    intro a x hx
    rcases hx with h | h
    · simp [h]
    · simp at h
  | cons b t ih =>
    intro a x hx
    rw [List.foldl_cons]
    rcases hx with h | h
    · subst h
      exact le_trans (ih (min x b) (min x b) (Or.inl rfl)) (min_le_left x b)
    · rcases List.mem_cons.mp h with h | h
      · subst h
        exact le_trans (ih (min a x) (min a x) (Or.inl rfl)) (min_le_right a x)
      · exact ih (min a b) x (Or.inr h)

theorem le_foldl_max : ∀ (t : List ℚ) (a x : ℚ), x = a ∨ x ∈ t → x ≤ t.foldl max a := by
  intro t
  induction t with
  | nil =>
    intro a x hx
    rcases hx with h | h
    · simp [h]
    · simp at h
  | cons b t ih =>
    intro a x hx
    rw [List.foldl_cons]
    rcases hx with h | h
    · subst h
      exact le_trans (le_max_left x b) (ih (max x b) (max x b) (Or.inl rfl))
    · rcases List.mem_cons.mp h with h | h
      · subst h
        exact le_trans (le_max_right a x) (ih (max a x) (max a x) (Or.inl rfl))
      · exact ih (max a b) x (Or.inr h)

theorem npMin_le {l : List ℚ} {x : ℚ} (hx : x ∈ l) : npMin l ≤ x := by
  match l, hx with
  | a :: t, hx =>
    unfold npMin
    rcases List.mem_cons.mp hx with h | h
    · exact foldl_min_le t a x (Or.inl h)
    · exact foldl_min_le t a x (Or.inr h)

theorem le_npMax {l : List ℚ} {x : ℚ} (hx : x ∈ l) : x ≤ npMax l := by
  match l, hx with
  | a :: t, hx =>
    unfold npMax
    rcases List.mem_cons.mp hx with h | h
    · exact le_foldl_max t a x (Or.inl h)
    · exact le_foldl_max t a x (Or.inr h)

theorem sorted_getD_mono {s : List ℚ} (hs : List.Sorted (· ≤ ·) s) {i j : ℕ}
    (hij : i ≤ j) (hj : j < s.length) : s.getD i 0 ≤ s.getD j 0 := by
  have hi : i < s.length := lt_of_le_of_lt hij hj
  rw [List.getD_eq_get s 0 hi, List.getD_eq_get s 0 hj]
  rcases Nat.eq_or_lt_of_le hij with h | h
  · subst h
    exact le_refl _
  · exact List.pairwise_iff_get.mp hs ⟨i, hi⟩ ⟨j, hj⟩ h

theorem getD_mem {s : List ℚ} {i : ℕ} (hi : i < s.length) : s.getD i 0 ∈ s := by
  rw [List.getD_eq_get s 0 hi]
  exact s.get_mem i hi

theorem interp_index_facts {s : List ℚ} (hne : s ≠ []) {pos : ℚ}
    (h0 : 0 ≤ pos) (h1 : pos ≤ (s.length : ℚ) - 1) :
    (((qfloor pos).toNat : ℕ) : ℚ) ≤ pos ∧
    pos < (((qfloor pos).toNat : ℕ) : ℚ) + 1 ∧
    (qfloor pos).toNat < s.length := by
  have hn : 1 ≤ s.length := List.length_pos.mpr hne
  have hize : 0 ≤ ⌊pos⌋ := Int.floor_nonneg.mpr h0
  have hcast : (((qfloor pos).toNat : ℕ) : ℚ) = ((⌊pos⌋ : ℤ) : ℚ) := by
    rw [qfloor_eq_floor]
    exact_mod_cast congrArg (fun z : ℤ => (z : ℚ)) (Int.toNat_of_nonneg hize)
  refine ⟨?_, ?_, ?_⟩
  · rw [hcast]
    exact Int.floor_le pos
  · rw [hcast]
    exact Int.lt_floor_add_one pos
  · have h2 : (((qfloor pos).toNat : ℕ) : ℚ) + 1 ≤ (s.length : ℚ) := by
      rw [hcast]
      have := Int.floor_le pos
      linarith
    have h3 : ((qfloor pos).toNat : ℕ) + 1 ≤ s.length := by exact_mod_cast h2
    omega

theorem interp_lower {s : List ℚ} (hs : List.Sorted (· ≤ ·) s) (hne : s ≠ [])
    {pos : ℚ} (h0 : 0 ≤ pos) (h1 : pos ≤ (s.length : ℚ) - 1) :
    s.getD (qfloor pos).toNat 0 ≤ interpAt s pos := by
  obtain ⟨hle, hlt, hin⟩ := interp_index_facts hne h0 h1
  unfold interpAt
  split
  · next hcond =>
    have hd : s.getD (qfloor pos).toNat 0 ≤ s.getD ((qfloor pos).toNat + 1) 0 :=
      sorted_getD_mono hs (Nat.le_succ _) hcond
    have hprod : 0 ≤ (pos - (((qfloor pos).toNat : ℕ) : ℚ)) *
        (s.getD ((qfloor pos).toNat + 1) 0 - s.getD (qfloor pos).toNat 0) :=
      mul_nonneg (by linarith) (by linarith)
    linarith
  · next hcond =>
    have h2 : (qfloor pos).toNat = s.length - 1 := by omega
    rw [h2]

theorem interp_upper {s : List ℚ} (hs : List.Sorted (· ≤ ·) s) (hne : s ≠ [])
    {pos : ℚ} (h0 : 0 ≤ pos) (h1 : pos ≤ (s.length : ℚ) - 1) :
    interpAt s pos ≤ s.getD (min ((qfloor pos).toNat + 1) (s.length - 1)) 0 := by
  obtain ⟨hle, hlt, hin⟩ := interp_index_facts hne h0 h1
  have hn : 1 ≤ s.length := List.length_pos.mpr hne
  unfold interpAt
  split
  · next hcond =>
    have hmin : min ((qfloor pos).toNat + 1) (s.length - 1) = (qfloor pos).toNat + 1 := by
      omega
    rw [hmin]
    have hd : s.getD (qfloor pos).toNat 0 ≤ s.getD ((qfloor pos).toNat + 1) 0 :=
      sorted_getD_mono hs (Nat.le_succ _) hcond
    have hg1 : pos - (((qfloor pos).toNat : ℕ) : ℚ) ≤ 1 := by linarith
    have hprod := mul_le_of_le_one_left
      (by linarith : (0:ℚ) ≤ s.getD ((qfloor pos).toNat + 1) 0 - s.getD (qfloor pos).toNat 0)
      hg1
    linarith
  · next hcond =>
    have hmin : min ((qfloor pos).toNat + 1) (s.length - 1) = s.length - 1 := by omega
    rw [hmin]

theorem interp_mono {s : List ℚ} (hs : List.Sorted (· ≤ ·) s) (hne : s ≠ [])
    {pos pos' : ℚ} (h0 : 0 ≤ pos) (h01 : pos ≤ pos')
    (h1 : pos' ≤ (s.length : ℚ) - 1) : interpAt s pos ≤ interpAt s pos' := by
  have h1p : pos ≤ (s.length : ℚ) - 1 := le_trans h01 h1
  have h0' : 0 ≤ pos' := le_trans h0 h01
  obtain ⟨hle, hlt, hin⟩ := interp_index_facts hne h0 h1p
  obtain ⟨hle', hlt', hin'⟩ := interp_index_facts hne h0' h1
  have hii : (qfloor pos).toNat ≤ (qfloor pos').toNat := by
    have hmono : ⌊pos⌋ ≤ ⌊pos'⌋ := Int.floor_mono h01
    rw [qfloor_eq_floor, qfloor_eq_floor]
    omega
  rcases Nat.eq_or_lt_of_le hii with heq | hlt2
  · unfold interpAt
    rw [← heq]
    split
    · next hcond =>
      have hd : s.getD (qfloor pos).toNat 0 ≤ s.getD ((qfloor pos).toNat + 1) 0 :=
        sorted_getD_mono hs (Nat.le_succ _) hcond
      have hgg : pos - (((qfloor pos).toNat : ℕ) : ℚ) ≤
          pos' - (((qfloor pos).toNat : ℕ) : ℚ) := by linarith
      have hprod := mul_le_mul_of_nonneg_right hgg (by linarith :
        (0:ℚ) ≤ s.getD ((qfloor pos).toNat + 1) 0 - s.getD (qfloor pos).toNat 0)
      linarith
    · exact le_refl _
  · have hup := interp_upper hs hne h0 h1p
    have hlo := interp_lower hs hne h0' h1
    have hmid : s.getD (min ((qfloor pos).toNat + 1) (s.length - 1)) 0 ≤
        s.getD (qfloor pos').toNat 0 :=
      sorted_getD_mono hs (by omega) hin'
    exact le_trans hup (le_trans hmid hlo)

/-- The per-lot statistics block of `generate_boxplot_data`. -/
structure LotStats where
  min : ℚ
  q1 : ℚ
  median : ℚ
  q3 : ℚ
  max : ℚ
  mean : ℚ
  count : ℕ
deriving DecidableEq, Repr, Inhabited

/-- The `stats` dict computed per lot: min, 25th percentile, median, 75th
percentile, max, mean and count of the lot's yield values. -/
def lotStats (yields : List ℚ) : LotStats :=
  ⟨npMin yields, npPercentile yields 25, npMedian yields,
   npPercentile yields 75, npMax yields,
   yields.sum / (yields.length : ℚ), yields.length⟩

theorem lotStats_chain (l : List ℚ) (hne : l ≠ []) :
    (lotStats l).min ≤ (lotStats l).q1 ∧
    (lotStats l).q1 ≤ (lotStats l).median ∧
    (lotStats l).median ≤ (lotStats l).q3 ∧
    (lotStats l).q3 ≤ (lotStats l).max := by
  have hs : List.Sorted (· ≤ ·) (List.insertionSort (· ≤ ·) l) :=
    List.sorted_insertionSort _ l
  have hperm : (List.insertionSort (· ≤ ·) l).Perm l := List.perm_insertionSort _ l
  have hsne : List.insertionSort (· ≤ ·) l ≠ [] := by
    intro h
    apply hne
    have hlen := hperm.length_eq
    rw [h] at hlen
    exact List.length_eq_zero.mp hlen.symm
  simp only [lotStats, npMedian, npPercentile]
  set s := List.insertionSort (· ≤ ·) l with hsdef
  have hn : 1 ≤ s.length := List.length_pos.mpr hsne
  have hn1 : (0:ℚ) ≤ (s.length : ℚ) - 1 := by
    have h2 : (1:ℚ) ≤ (s.length : ℚ) := by exact_mod_cast hn
    linarith
  have hp25 : (0:ℚ) ≤ 25 / 100 * ((s.length : ℚ) - 1) :=
    mul_nonneg (by norm_num) hn1
  have hp2550 : 25 / 100 * ((s.length : ℚ) - 1) ≤ 50 / 100 * ((s.length : ℚ) - 1) :=
    mul_le_mul_of_nonneg_right (by norm_num) hn1
  have hp5075 : 50 / 100 * ((s.length : ℚ) - 1) ≤ 75 / 100 * ((s.length : ℚ) - 1) :=
    mul_le_mul_of_nonneg_right (by norm_num) hn1
  have hp75n : 75 / 100 * ((s.length : ℚ) - 1) ≤ (s.length : ℚ) - 1 :=
    mul_le_of_le_one_left hn1 (by norm_num)
  have hp25n : 25 / 100 * ((s.length : ℚ) - 1) ≤ (s.length : ℚ) - 1 :=
    le_trans hp2550 (le_trans hp5075 hp75n)
  have hp50 : (0:ℚ) ≤ 50 / 100 * ((s.length : ℚ) - 1) := le_trans hp25 hp2550
  have hp75 : (0:ℚ) ≤ 75 / 100 * ((s.length : ℚ) - 1) := le_trans hp50 hp5075
  refine ⟨?_, ?_, ?_, ?_⟩
  · -- min ≤ q1
    obtain ⟨_, _, hin⟩ := interp_index_facts hsne hp25 hp25n
    have hlow := interp_lower hs hsne hp25 hp25n
    have hmem : s.getD (qfloor (25 / 100 * ((s.length : ℚ) - 1))).toNat 0 ∈ l :=
      hperm.mem_iff.mp (getD_mem hin)
    exact le_trans (npMin_le hmem) hlow
  · exact interp_mono hs hsne hp25 hp2550 (le_trans hp5075 hp75n)
  · exact interp_mono hs hsne hp50 hp5075 hp75n
  · -- q3 ≤ max
    have hup := interp_upper hs hsne hp75 hp75n
    have hjin : min ((qfloor (75 / 100 * ((s.length : ℚ) - 1))).toNat + 1)
        (s.length - 1) < s.length := by omega
    have hmem : s.getD (min ((qfloor (75 / 100 * ((s.length : ℚ) - 1))).toNat + 1)
        (s.length - 1)) 0 ∈ l := hperm.mem_iff.mp (getD_mem hjin)
    exact le_trans hup (le_npMax hmem)

-- the hierarchical structure of `generate_boxplot_data`

/-- `pandas.Series.unique`: distinct values in order of first appearance. -/
def uniqueFirst : List String → List String
  | [] => []
  | a :: l => a :: (uniqueFirst l).filter (fun b => b ≠ a)

/-- One lot entry: lot id, the raw (Wafer_id, Yield) records of the lot,
and the statistics over its yield values. -/
structure LotEntry where
  lot_id : String
  wafers : List (String × ℚ)
  stats : LotStats
deriving DecidableEq, Repr, Inhabited

/-- One week entry: week number and its lot entries. -/
structure WeekEntry where
  week_no : ℤ
  lots : List LotEntry
deriving DecidableEq, Repr, Inhabited

/-- The metadata block of the box-plot structure. -/
structure BoxplotMetadata where
  year : ℤ
  total_weeks : ℤ
  total_lots : ℤ
  wafers_per_lot : ℤ
  total_points : ℕ
deriving DecidableEq, Repr

/-- The full hierarchical box-plot structure. -/
structure BoxplotData where
  metadata : BoxplotMetadata
  hierarchy_levels : List String
  hierarchy_years : List ℤ
  weeks : List WeekEntry
deriving DecidableEq, Repr

/-- The body of the per-lot loop: filter the week's rows down to one lot,
collect its wafer records and compute its statistics. -/
def lotEntryOf (week_data : List YieldRecord) (lot_id : String) : LotEntry :=
  { lot_id := lot_id
    wafers := (week_data.filter (fun r => r.lot_id == lot_id)).map
      (fun r => (r.wafer_id, r.yieldPct))
    stats := lotStats ((week_data.filter (fun r => r.lot_id == lot_id)).map
      (fun r => r.yieldPct)) }

/-- The body of the per-week loop: filter the DataFrame down to one week and
emit one lot entry per first-appearance-ordered unique lot id. -/
def weekEntryOf (df : List YieldRecord) (week : ℤ) : WeekEntry :=
  { week_no := week
    lots := (uniqueFirst ((df.filter (fun r => r.week_no == week)).map
        (fun r => r.lot_id))).map
      (lotEntryOf (df.filter (fun r => r.week_no == week))) }

/-- `generate_boxplot_data`: metadata, hierarchy descriptor and the per-week
per-lot grouping with statistics. -/
def generate_boxplot_data (p : GenerationParameters) (draws : ℕ → ℚ) :
    BoxplotData :=
  { metadata :=
      { year := p.year
        total_weeks := p.weeks_per_year
        total_lots := p.weeks_per_year * p.lots_per_week
        wafers_per_lot := p.wafers_per_lot
        total_points := (generate_dataframe p draws).length }
    hierarchy_levels := ["Year", "Week_no", "Lot_id"]
    hierarchy_years := [p.year]
    weeks := (pyRange 1 (p.weeks_per_year + 1)).map
      (weekEntryOf (generate_dataframe p draws)) }

theorem uniqueFirst_subset : ∀ (l : List String) (x : String),
    x ∈ uniqueFirst l → x ∈ l := by
  intro l
  induction l with
  | nil => intro x hx; exact absurd hx (List.not_mem_nil x)
  | cons a t ih =>
    intro x hx
    unfold uniqueFirst at hx
    rcases List.mem_cons.mp hx with h | h
    · exact h ▸ List.mem_cons_self a t
    · exact List.mem_cons_of_mem a (ih x (List.mem_of_mem_filter h))

/-- Every lot entry of a week entry is built from a non-empty filtered group,
so its statistics satisfy the box-plot ordering chain and its count equals
its number of wafer records. -/
theorem lotEntry_sound (df : List YieldRecord) (week : ℤ) (le : LotEntry)
    (hle : le ∈ (weekEntryOf df week).lots) :
    le.stats.min ≤ le.stats.q1 ∧ le.stats.q1 ≤ le.stats.median ∧
    le.stats.median ≤ le.stats.q3 ∧ le.stats.q3 ≤ le.stats.max ∧
    le.stats.count = le.wafers.length := by
  unfold weekEntryOf at hle
  rw [List.mem_map] at hle
  obtain ⟨lid, hlid, hentry⟩ := hle
  have hocc : lid ∈ (df.filter (fun r => r.week_no == week)).map
      (fun r => r.lot_id) := uniqueFirst_subset _ lid hlid
  rw [List.mem_map] at hocc
  obtain ⟨r0, hr0, hr0id⟩ := hocc
  have hr0f : r0 ∈ (df.filter (fun r => r.week_no == week)).filter
      (fun r => r.lot_id == lid) := by
    rw [List.mem_filter]
    exact ⟨hr0, by rw [hr0id]; exact beq_self_eq_true lid⟩
  have hne : ((df.filter (fun r => r.week_no == week)).filter
      (fun r => r.lot_id == lid)).map (fun r => r.yieldPct) ≠ [] := by
    apply List.ne_nil_of_mem (a := r0.yieldPct)
    exact List.mem_map_of_mem _ hr0f
  subst hentry
  unfold lotEntryOf
  obtain ⟨h1, h2, h3, h4⟩ := lotStats_chain _ hne
  refine ⟨h1, h2, h3, h4, ?_⟩
  show (lotStats _).count = _
  unfold lotStats
  simp [List.length_map]

/-- C3: every lot entry in the hierarchical result satisfies
min ≤ q1 ≤ median ≤ q3 ≤ max (linear-interpolation percentiles), and its
count equals the number of wafer records of that lot. -/
theorem C3_lot_statistics_order (p : GenerationParameters) (draws : ℕ → ℚ)
    (we : WeekEntry) (hwe : we ∈ (generate_boxplot_data p draws).weeks)
    (le : LotEntry) (hle : le ∈ we.lots) :
    le.stats.min ≤ le.stats.q1 ∧ le.stats.q1 ≤ le.stats.median ∧
    le.stats.median ≤ le.stats.q3 ∧ le.stats.q3 ≤ le.stats.max ∧
    le.stats.count = le.wafers.length := by
  unfold generate_boxplot_data at hwe
  simp only [List.mem_map] at hwe
  obtain ⟨week, _, hweek⟩ := hwe
  subst hweek
  exact lotEntry_sound _ week le hle

theorem C3_lot_statistics_order_witness :
    weekEntryOf (generate_dataframe pW dW) 1 ∈ (generate_boxplot_data pW dW).weeks ∧
    lotEntryOf ((generate_dataframe pW dW).filter (fun r => r.week_no == 1))
      (formatLotId 1) ∈ (weekEntryOf (generate_dataframe pW dW) 1).lots ∧
    ((lotEntryOf ((generate_dataframe pW dW).filter (fun r => r.week_no == 1))
        (formatLotId 1)).stats.min ≤
      (lotEntryOf ((generate_dataframe pW dW).filter (fun r => r.week_no == 1))
        (formatLotId 1)).stats.q1 ∧
     (lotEntryOf ((generate_dataframe pW dW).filter (fun r => r.week_no == 1))
        (formatLotId 1)).stats.q1 ≤
      (lotEntryOf ((generate_dataframe pW dW).filter (fun r => r.week_no == 1))
        (formatLotId 1)).stats.median ∧
     (lotEntryOf ((generate_dataframe pW dW).filter (fun r => r.week_no == 1))
        (formatLotId 1)).stats.median ≤
      (lotEntryOf ((generate_dataframe pW dW).filter (fun r => r.week_no == 1))
        (formatLotId 1)).stats.q3 ∧
     (lotEntryOf ((generate_dataframe pW dW).filter (fun r => r.week_no == 1))
        (formatLotId 1)).stats.q3 ≤
      (lotEntryOf ((generate_dataframe pW dW).filter (fun r => r.week_no == 1))
        (formatLotId 1)).stats.max ∧
     (lotEntryOf ((generate_dataframe pW dW).filter (fun r => r.week_no == 1))
        (formatLotId 1)).stats.count =
      (lotEntryOf ((generate_dataframe pW dW).filter (fun r => r.week_no == 1))
        (formatLotId 1)).wafers.length) := by
  have hwe : weekEntryOf (generate_dataframe pW dW) 1 ∈
      (generate_boxplot_data pW dW).weeks :=
    List.mem_map_of_mem _ (by decide)
  have hle : lotEntryOf ((generate_dataframe pW dW).filter
        (fun r => r.week_no == 1)) (formatLotId 1) ∈
      (weekEntryOf (generate_dataframe pW dW) 1).lots :=
    List.mem_map_of_mem _ (by decide)
  exact ⟨hwe, hle, C3_lot_statistics_order pW dW _ hwe _ hle⟩

-- the metrics store of `metrics_logger.py`

/-- One timing sample as appended by `log_timing`: the metrics dict of a
sample (here its `duration_ms` field; auxiliary fields do not affect the
store semantics). -/
structure TimingMetrics where
  duration_ms : ℚ
deriving DecidableEq, Repr, Inhabited

/-- The `metrics_store` dict of one `MetricsLogger` instance, modelled as a
total function with the `dict.get(operation, [])` default built in: a
missing key is the empty history. -/
def MetricsStore : Type := String → List TimingMetrics

/-- The store of a freshly constructed `MetricsLogger` (empty dict). -/
def emptyStore : MetricsStore := fun _ => []

/-- `MetricsLogger.log_timing`: append the sample to the list under the
operation name (creating the entry if absent). -/
def log_timing (st : MetricsStore) (operation : String) (m : TimingMetrics) :
    MetricsStore :=
  fun o => if o = operation then st o ++ [m] else st o

/-- `MetricsLogger.get_metrics(operation)`: the stored history of one
operation (empty if never logged). -/
def get_metrics (st : MetricsStore) (operation : String) : List TimingMetrics :=
  st operation

/-- `MetricsLogger.clear_metrics`: reset the store to an empty dict. -/
def clear_metrics (_st : MetricsStore) : MetricsStore := fun _ => []

/-- Replay a sequence of `log_timing` calls ((operation, sample) events, in
call order) against a store. -/
def applyEvents (st : MetricsStore) (evs : List (String × TimingMetrics)) :
    MetricsStore :=
  evs.foldl (fun s e => log_timing s e.1 e.2) st

theorem get_metrics_applyEvents (evs : List (String × TimingMetrics))
    (st : MetricsStore) (op : String) :
    get_metrics (applyEvents st evs) op =
      get_metrics st op ++ (evs.filter (fun e => e.1 == op)).map (fun e => e.2) := by
  induction evs generalizing st with
  | nil => simp [applyEvents, get_metrics]
  | cons e t ih =>
    show get_metrics (applyEvents (log_timing st e.1 e.2) t) op = _
    rw [ih, List.filter_cons]
    by_cases h : e.1 = op
    · have hfe : (e.1 == op) = true := beq_iff_eq.mpr h
      rw [if_pos hfe, List.map_cons]
      show (if op = e.1 then st op ++ [e.2] else st op) ++ _ = _
      rw [if_pos h.symm, List.append_assoc]
      rfl
    · have hfe : (e.1 == op) = false := beq_eq_false_iff_ne.mpr h
      rw [if_neg (by simp [hfe])]
      show (if op = e.1 then st op ++ [e.2] else st op) ++ _ = _
      rw [if_neg (fun hh => h hh.symm)]
      rfl

/-- C6: replaying any sequence of timing recordings against an empty store,
`get_metrics` returns under each operation name exactly the samples
recorded under that name, in call order (appends never overwrite or drop);
and after `clear_metrics` every operation's history is empty. -/
theorem C6_metrics_store_append_reset (evs : List (String × TimingMetrics))
    (op : String) (st : MetricsStore) :
    get_metrics (applyEvents emptyStore evs) op =
      (evs.filter (fun e => e.1 == op)).map (fun e => e.2) ∧
    get_metrics (clear_metrics st) op = [] := by
  constructor
  · rw [get_metrics_applyEvents]
    rfl
  · rfl

-- the timing context of `metrics_logger.py`

/-- The body of `TimingContext.__exit__`: round the elapsed milliseconds to
2 decimals, log the sample, and return `False` (the returned Bool tells the
`with` statement whether to suppress an exception). -/
def timingExit (st : MetricsStore) (operation : String) (elapsed_ms : ℚ) :
    MetricsStore × Bool :=
  (log_timing st operation ⟨round2 elapsed_ms⟩, false)

/-- Python `with TimingContext(logger, op): body` around a body with outcome
`body : Except ε α` (an exception or a value): `__exit__` runs on both the
normal and the exceptional path; if it returned `True` the exception would
be swallowed (the block would produce no value, modelled by `default`),
and since it returns `False` the exception is re-raised unchanged. -/
def withTimingContext {ε α : Type} [Inhabited α] (st : MetricsStore)
    (operation : String) (elapsed_ms : ℚ) (body : Except ε α) :
    Except ε α × MetricsStore :=
  match body with
  | Except.ok a => (Except.ok a, (timingExit st operation elapsed_ms).1)
  | Except.error e =>
      (if (timingExit st operation elapsed_ms).2 then Except.ok default
       else Except.error e,
       (timingExit st operation elapsed_ms).1)

/-- C7: the scoped timing construct records its sample to the store both on
normal completion and on abnormal termination, and the wrapped body's
outcome — value or error — is propagated unchanged (the timing mechanism
neither suppresses nor replaces an error). -/
theorem C7_timing_records_and_propagates {ε α : Type} [Inhabited α]
    (st : MetricsStore) (operation : String) (elapsed_ms : ℚ)
    (body : Except ε α) :
    (withTimingContext st operation elapsed_ms body).1 = body ∧
    get_metrics (withTimingContext st operation elapsed_ms body).2 operation =
      get_metrics st operation ++ [⟨round2 elapsed_ms⟩] := by
  constructor
  · cases body with
    | ok a => rfl
    | error e => rfl
  · cases body with
    | ok a =>
      show get_metrics (log_timing st operation _) operation = _
      unfold get_metrics log_timing
      rw [if_pos rfl]
    | error e =>
      show get_metrics (log_timing st operation _) operation = _
      unfold get_metrics log_timing
      rw [if_pos rfl]

-- store effects of the pipeline stages and the per-module loggers

/-- The store effect of `generate_dataframe` on the module-level
`data_generator` logger: its three `TimingContext`s record
`array_generation`, `yield_generation` and `dataframe_creation` samples,
in that order, regardless of the parameter values (no validation happens
before the loops run). -/
def generate_dataframe_store (st : MetricsStore) (e1 e2 e3 : ℚ) : MetricsStore :=
  (timingExit (timingExit (timingExit st ("array_generation") e1).1
    ("yield_generation") e2).1 ("dataframe_creation") e3).1

/-- The store effect of `generate_boxplot_data` on the `data_generator`
logger: the `generate_dataframe` stages plus `boxplot_transformation`. -/
def generate_boxplot_data_store (st : MetricsStore) (e1 e2 e3 e4 : ℚ) :
    MetricsStore :=
  (timingExit (generate_dataframe_store st e1 e2 e3)
    ("boxplot_transformation") e4).1

/-- The three module-level `MetricsLogger` instances of the process: `main.py`,
`routers/charts.py` and `services/data_generator.py` each construct their own
`MetricsLogger`, each holding its own `metrics_store`. -/
structure ProcessState where
  main_store : MetricsStore
  charts_router_store : MetricsStore
  data_generator_store : MetricsStore

/-- The store effects of one run of the `/boxplot` endpoint: the generation
pipeline records its stage samples on the `data_generator` logger; the
router's own `TimingContext`s record `response_preparation` and then
`boxplot_endpoint` (inner context exits first) on the `charts_router`
logger. -/
def boxplot_endpoint_run (ps : ProcessState) (e1 e2 e3 e4 ep et : ℚ) :
    ProcessState :=
  { ps with
    data_generator_store :=
      generate_boxplot_data_store ps.data_generator_store e1 e2 e3 e4
    charts_router_store :=
      (timingExit (timingExit ps.charts_router_store
        ("response_preparation") ep).1 ("boxplot_endpoint") et).1 }

/-- The `/metrics` endpoint: `logger.get_metrics()` on the `charts_router`
module's logger, i.e. that logger's whole store (and only that one). -/
def metrics_endpoint (ps : ProcessState) : MetricsStore :=
  ps.charts_router_store

theorem generate_dataframe_store_array_generation (st : MetricsStore)
    (e1 e2 e3 : ℚ) :
    get_metrics (generate_dataframe_store st e1 e2 e3) ("array_generation") =
      get_metrics st ("array_generation") ++ [⟨round2 e1⟩] := by
  unfold generate_dataframe_store timingExit get_metrics log_timing
  dsimp only
  rw [if_neg (by decide), if_neg (by decide), if_pos rfl]

theorem generate_dataframe_empty_of_zero (p : GenerationParameters)
    (draws : ℕ → ℚ)
    (h : p.weeks_per_year = 0 ∨ p.lots_per_week = 0 ∨ p.wafers_per_lot = 0) :
    generate_dataframe p draws = [] := by
  unfold generate_dataframe
  rw [generateRows_eq]
  have hz : p.weeks_per_year.toNat *
      (p.lots_per_week.toNat * p.wafers_per_lot.toNat) = 0 := by
    rcases h with h | h | h <;> simp [h]
  rw [hz]
  rfl

/-- C4 counterexample: with `wafers_per_lot = 0` the generator raises no
error and produces no records, but the Metrics Store is NOT left
unchanged — the `array_generation` timing context still runs and appends a
sample (the claimed fail-fast InvalidParameter error does not exist in the
code). -/
theorem C4_counterexample :
    generate_dataframe ⟨2025, 52, 10, 0⟩ (fun _ => 92) = [] ∧
    get_metrics (generate_dataframe_store emptyStore 1 1 1)
      ("array_generation") ≠ [] := by
  constructor
  · exact generate_dataframe_empty_of_zero _ _ (Or.inr (Or.inr rfl))
  · rw [generate_dataframe_store_array_generation]
    simp [emptyStore, get_metrics]

/-- C4 amended: if any of the three count parameters is zero, the core does
NOT fail: `generate_dataframe` silently returns an empty record list, and
its timing stages still run, appending their samples to the
`data_generator` logger's Metrics Store (parameter validation exists only
in the HTTP routing layer, which is outside the core). -/
theorem C4_zero_params_amended (p : GenerationParameters) (draws : ℕ → ℚ)
    (st : MetricsStore) (e1 e2 e3 : ℚ)
    (h : p.weeks_per_year = 0 ∨ p.lots_per_week = 0 ∨ p.wafers_per_lot = 0) :
    generate_dataframe p draws = [] ∧
    get_metrics (generate_dataframe_store st e1 e2 e3) ("array_generation") =
      get_metrics st ("array_generation") ++ [⟨round2 e1⟩] :=
  ⟨generate_dataframe_empty_of_zero p draws h,
   generate_dataframe_store_array_generation st e1 e2 e3⟩

theorem C4_zero_params_amended_witness :
    ((⟨2025, 52, 10, 0⟩ : GenerationParameters).weeks_per_year = 0 ∨
     (⟨2025, 52, 10, 0⟩ : GenerationParameters).lots_per_week = 0 ∨
     (⟨2025, 52, 10, 0⟩ : GenerationParameters).wafers_per_lot = 0) ∧
    (generate_dataframe ⟨2025, 52, 10, 0⟩ (fun _ => 92) = [] ∧
     get_metrics (generate_dataframe_store emptyStore 1 1 1)
       ("array_generation") =
       get_metrics emptyStore ("array_generation") ++ [⟨round2 1⟩]) :=
  ⟨Or.inr (Or.inr rfl),
   C4_zero_params_amended ⟨2025, 52, 10, 0⟩ (fun _ => 92) emptyStore 1 1 1
     (Or.inr (Or.inr rfl))⟩

/-- C5 counterexample: after one `/boxplot` run on a fresh process, the
metrics query surface (the `charts_router` logger) returns an empty history
for the synthesizer's `array_generation` stage even though that stage's
sample was recorded — it sits in the separate `data_generator` logger's
store.  There is no single process-wide Metrics Store. -/
theorem C5_counterexample :
    get_metrics (metrics_endpoint (boxplot_endpoint_run
        ⟨emptyStore, emptyStore, emptyStore⟩ 0 0 0 0 0 0))
      ("array_generation") = [] ∧
    get_metrics ((boxplot_endpoint_run
        ⟨emptyStore, emptyStore, emptyStore⟩ 0 0 0 0 0 0).data_generator_store)
      ("array_generation") = [⟨round2 0⟩] ∧
    ([⟨round2 0⟩] : List TimingMetrics) ≠ [] := by
  refine ⟨?_, ?_, by simp⟩
  · unfold boxplot_endpoint_run metrics_endpoint timingExit get_metrics
      log_timing emptyStore
    dsimp only
    rw [if_neg (by decide), if_neg (by decide)]
  · show get_metrics (generate_boxplot_data_store emptyStore 0 0 0 0)
      ("array_generation") = _
    unfold generate_boxplot_data_store timingExit get_metrics log_timing
    dsimp only
    rw [if_neg (by decide)]
    have h := generate_dataframe_store_array_generation emptyStore 0 0 0
    unfold get_metrics at h
    rw [h]
    rfl

/-- C5 amended: timing samples accumulate in per-logger-instance stores, one
per module; the metrics query surface returns only the `charts_router`
logger's store, which gains the endpoint samples but never the
synthesizer's stage samples — those accumulate in the `data_generator`
logger's store. -/
theorem C5_per_logger_stores_amended (ps : ProcessState)
    (e1 e2 e3 e4 ep et : ℚ) :
    get_metrics (metrics_endpoint (boxplot_endpoint_run ps e1 e2 e3 e4 ep et))
        ("array_generation") =
      get_metrics (metrics_endpoint ps) ("array_generation") ∧
    get_metrics ((boxplot_endpoint_run ps e1 e2 e3 e4 ep et).data_generator_store)
        ("array_generation") =
      get_metrics ps.data_generator_store ("array_generation") ++ [⟨round2 e1⟩] ∧
    get_metrics (metrics_endpoint (boxplot_endpoint_run ps e1 e2 e3 e4 ep et))
        ("boxplot_endpoint") =
      get_metrics (metrics_endpoint ps) ("boxplot_endpoint") ++ [⟨round2 et⟩] := by
  refine ⟨?_, ?_, ?_⟩
  · unfold boxplot_endpoint_run metrics_endpoint timingExit get_metrics
      log_timing
    dsimp only
    rw [if_neg (by decide), if_neg (by decide)]
  · show get_metrics (generate_boxplot_data_store ps.data_generator_store
      e1 e2 e3 e4) ("array_generation") = _
    unfold generate_boxplot_data_store timingExit get_metrics log_timing
    dsimp only
    rw [if_neg (by decide)]
    have h := generate_dataframe_store_array_generation
      ps.data_generator_store e1 e2 e3
    unfold get_metrics at h
    exact h
  · unfold boxplot_endpoint_run metrics_endpoint timingExit get_metrics
      log_timing
    dsimp only
    rw [if_pos rfl, if_neg (by decide)]

-- the flat CSV serializer of `generate_csv` (pandas `to_csv(index=False)`)

/-- The fixed CSV header row written by `df.to_csv`. -/
def csvHeader : String := "Lot_id,Wafer_id,Year,Week_no,Yield\n"

/-- Decimal rendering of a Python int. -/
def intChars (z : ℤ) : List Char :=
  if z < 0 then '-' :: decimalChars z.natAbs else decimalChars z.natAbs

def intString (z : ℤ) : String := String.mk (intChars z)

/-- Rendering of a yield cell: the generated values are exact multiples of
1/100, and the float repr pandas writes is their shortest decimal form with
at least one fractional digit ("92.0", "92.5", "92.13"). -/
def yieldChars (q : ℚ) : List Char :=
  (if qfloor (q * 100) < 0 then ['-'] else []) ++
    decimalChars ((qfloor (q * 100)).natAbs / 100) ++ ['.'] ++
    (if (qfloor (q * 100)).natAbs % 100 % 10 = 0 then
      decimalChars ((qfloor (q * 100)).natAbs % 100 / 10)
    else zfillChars 2 (decimalChars ((qfloor (q * 100)).natAbs % 100)))

def yieldString (q : ℚ) : String := String.mk (yieldChars q)

/-- One CSV data row: the five comma-separated cells, newline-terminated
(pandas terminates every row, including the last, with a newline). -/
def recordLine (r : YieldRecord) : String :=
  r.lot_id ++ "," ++ r.wafer_id ++ "," ++ intString r.year ++ "," ++
    intString r.week_no ++ "," ++ yieldString r.yieldPct ++ "\n"

/-- The data rows of the CSV, written in DataFrame (generation) order. -/
def csvBody (df : List YieldRecord) : String :=
  df.foldl (fun acc r => acc ++ recordLine r) ""

/-- The auxiliary metrics attached by `generate_csv`:
`csv_size_bytes = len(csv_string.encode('utf-8'))` and the
`total_data_points` entry inherited from `generate_dataframe`. -/
structure CsvMetrics where
  csv_size_bytes : ℕ
  total_data_points : ℤ
deriving DecidableEq, Repr

/-- `generate_csv`: header plus one line per record, with byte-size and
record-count metrics. -/
def generate_csv (p : GenerationParameters) (draws : ℕ → ℚ) :
    String × CsvMetrics :=
  (csvHeader ++ csvBody (generate_dataframe p draws),
   ⟨(csvHeader ++ csvBody (generate_dataframe p draws)).utf8ByteSize,
    total_points p⟩)

/-- Number of newline characters of a string; since `to_csv` terminates
every line with a newline, this is the line count of the text. -/
def countNl (s : String) : ℕ := s.data.count '\n'

theorem countNl_append (a b : String) :
    countNl (a ++ b) = countNl a + countNl b := by
  unfold countNl
  rw [String.data_append, List.count_append]

theorem digitChar_ne_nl : ∀ d : ℕ, d < 10 → Nat.digitChar d ≠ '\n' := by
  decide

theorem no_nl_decimalChars (n : ℕ) : '\n' ∉ decimalChars n := by
  unfold decimalChars
  intro h
  rw [List.mem_reverse, List.mem_map] at h
  obtain ⟨d, hd, hdc⟩ := h
  exact digitChar_ne_nl d (decDigits_lt_ten n d hd) hdc

theorem no_nl_zfill (w : ℕ) (l : List Char) (h : '\n' ∉ l) :
    '\n' ∉ zfillChars w l := by
  unfold zfillChars
  intro hmem
  rcases List.mem_append.mp hmem with h2 | h2
  · have := List.eq_of_mem_replicate h2
    exact absurd this (by decide)
  · exact h h2

theorem countNl_eq_zero_of_not_mem {s : String} (h : '\n' ∉ s.data) :
    countNl s = 0 := List.count_eq_zero.mpr h

theorem countNl_formatLotId (n : ℕ) : countNl (formatLotId n) = 0 := by
  apply countNl_eq_zero_of_not_mem
  show '\n' ∉ 'L' :: zfillChars 4 (decimalChars n)
  intro h
  rcases List.mem_cons.mp h with h2 | h2
  · exact absurd h2 (by decide)
  · exact no_nl_zfill 4 _ (no_nl_decimalChars n) h2

theorem countNl_formatWaferId (n : ℕ) : countNl (formatWaferId n) = 0 := by
  apply countNl_eq_zero_of_not_mem
  show '\n' ∉ 'W' :: zfillChars 2 (decimalChars n)
  intro h
  rcases List.mem_cons.mp h with h2 | h2
  · exact absurd h2 (by decide)
  · exact no_nl_zfill 2 _ (no_nl_decimalChars n) h2

theorem countNl_intString (z : ℤ) : countNl (intString z) = 0 := by
  apply countNl_eq_zero_of_not_mem
  show '\n' ∉ intChars z
  unfold intChars
  split
  · intro h
    rcases List.mem_cons.mp h with h2 | h2
    · exact absurd h2 (by decide)
    · exact no_nl_decimalChars _ h2
  · exact no_nl_decimalChars _

theorem countNl_yieldString (q : ℚ) : countNl (yieldString q) = 0 := by
  apply countNl_eq_zero_of_not_mem
  show '\n' ∉ yieldChars q
  unfold yieldChars
  intro h
  rcases List.mem_append.mp h with h2 | h2
  · rcases List.mem_append.mp h2 with h3 | h3
    · rcases List.mem_append.mp h3 with h4 | h4
      · split at h4
        · exact absurd (List.mem_singleton.mp h4) (by decide)
        · exact absurd h4 (List.not_mem_nil _)
      · exact no_nl_decimalChars _ h4
    · exact absurd (List.mem_singleton.mp h3) (by decide)
  · split at h2
    · exact no_nl_decimalChars _ h2
    · exact no_nl_zfill 2 _ (no_nl_decimalChars _) h2

theorem countNl_recordLine (r : YieldRecord) (h1 : countNl r.lot_id = 0)
    (h2 : countNl r.wafer_id = 0) : countNl (recordLine r) = 1 := by
  unfold recordLine
  rw [countNl_append, countNl_append, countNl_append, countNl_append,
    countNl_append, countNl_append, countNl_append, countNl_append,
    countNl_append, h1, h2, countNl_intString, countNl_intString,
    countNl_yieldString]
  have hc : countNl "," = 0 := by decide
  have hn : countNl "\n" = 1 := by decide
  omega

theorem countNl_csvBody_aux :
    ∀ (df : List YieldRecord) (acc : String),
      (∀ r ∈ df, countNl (recordLine r) = 1) →
      countNl (df.foldl (fun a r => a ++ recordLine r) acc) =
        countNl acc + df.length := by
  intro df
  induction df with
  | nil => intro acc _; simp
  | cons r t ih =>
    intro acc h
    rw [List.foldl_cons, ih _ (fun x hx => h x (List.mem_cons_of_mem r hx)),
      countNl_append, h r (List.mem_cons_self r t), List.length_cons]
    omega

theorem countNl_csvBody (df : List YieldRecord)
    (h : ∀ r ∈ df, countNl (recordLine r) = 1) :
    countNl (csvBody df) = df.length := by
  unfold csvBody
  rw [countNl_csvBody_aux df _ h]
  have h0 : countNl "" = 0 := by decide
  omega

/-- The record count, as an integer, of the generated DataFrame. -/
theorem generate_dataframe_length (p : GenerationParameters) (draws : ℕ → ℚ)
    (hw : 0 ≤ p.weeks_per_year) (hl : 0 ≤ p.lots_per_week)
    (hf : 0 ≤ p.wafers_per_lot) :
    ((generate_dataframe p draws).length : ℤ) = total_points p := by
  rw [generate_dataframe_eq p draws hw hl hf, List.length_map,
    List.length_range, ← total_points_toNat p hw hl hf,
    Int.toNat_of_nonneg (by unfold total_points; positivity)]

/-- C9: the flat serialization is the fixed header row
`Lot_id,Wafer_id,Year,Week_no,Yield` followed by exactly one
newline-terminated line per record in generation order (so its line count
is 1 + record count; for weeks=2, lotsPerWeek=3, wafersPerLot=25 that is
151), `csv_size_bytes` is the UTF-8 byte length of the produced text, and
`total_data_points` equals the record count. -/
theorem C9_csv_serialization (p : GenerationParameters) (draws : ℕ → ℚ)
    (hw : 0 < p.weeks_per_year) (hl : 0 < p.lots_per_week)
    (hf : 0 < p.wafers_per_lot) :
    (generate_csv p draws).1 =
      "Lot_id,Wafer_id,Year,Week_no,Yield\n" ++
        csvBody (generate_dataframe p draws) ∧
    countNl (generate_csv p draws).1 = 1 + (generate_dataframe p draws).length ∧
    (generate_csv p draws).2.csv_size_bytes =
      (generate_csv p draws).1.utf8ByteSize ∧
    (generate_csv p draws).2.total_data_points =
      ((generate_dataframe p draws).length : ℤ) := by
  refine ⟨rfl, ?_, rfl, ?_⟩
  · show countNl (csvHeader ++ csvBody _) = _
    rw [countNl_append, countNl_csvBody]
    · have hh : countNl csvHeader = 1 := by decide
      omega
    · intro r hr
      rw [generate_dataframe_eq p draws hw.le hl.le hf.le, List.mem_map] at hr
      obtain ⟨k, _, hk⟩ := hr
      subst hk
      exact countNl_recordLine _ (countNl_formatLotId _) (countNl_formatWaferId _)
  · exact (generate_dataframe_length p draws hw.le hl.le hf.le).symm

theorem C9_csv_serialization_witness :
    (0:ℤ) < 2 ∧ (0:ℤ) < 3 ∧ (0:ℤ) < 25 ∧
    countNl (generate_csv ⟨2025, 2, 3, 25⟩ (fun _ => 92)).1 =
      1 + (generate_dataframe ⟨2025, 2, 3, 25⟩ (fun _ => 92)).length ∧
    (generate_csv ⟨2025, 2, 3, 25⟩ (fun _ => 92)).2.total_data_points =
      ((generate_dataframe ⟨2025, 2, 3, 25⟩ (fun _ => 92)).length : ℤ) :=
  ⟨by norm_num, by norm_num, by norm_num,
   (C9_csv_serialization ⟨2025, 2, 3, 25⟩ (fun _ => 92) (by norm_num)
     (by norm_num) (by norm_num)).2.1,
   (C9_csv_serialization ⟨2025, 2, 3, 25⟩ (fun _ => 92) (by norm_num)
     (by norm_num) (by norm_num)).2.2.2⟩

theorem generate_dataframe_getD (p : GenerationParameters) (draws : ℕ → ℚ)
    (hw : 0 ≤ p.weeks_per_year) (hl : 0 ≤ p.lots_per_week)
    (hf : 0 ≤ p.wafers_per_lot) (k : ℕ)
    (hk : k < (generate_dataframe p draws).length) :
    (generate_dataframe p draws).getD k default = recordAt p draws k := by
  rw [generate_dataframe_eq p draws hw hl hf] at hk ⊢
  rw [List.length_map, List.length_range] at hk
  rw [List.getD_eq_get _ _ (by simpa using hk), List.get_map]
  congr 1
  exact List.get_range _ _

/-- C8: lot ids are assigned from a single global counter starting at 1 and
never reset between weeks (record k belongs to lot number k/F + 1 of the
whole dataset, F = wafersPerLot), zero-padded to 4 digits; they are unique
across the dataset (equal lot ids only within the same lot).  Wafer ids run
1..wafersPerLot within each lot with 2-digit zero-padding and are unique
within a lot. -/
theorem C8_lot_wafer_id_assignment (p : GenerationParameters) (draws : ℕ → ℚ)
    (hw : 0 < p.weeks_per_year) (hl : 0 < p.lots_per_week)
    (hf : 0 < p.wafers_per_lot) :
    (∀ k, k < (generate_dataframe p draws).length →
      ((generate_dataframe p draws).getD k default).lot_id =
        formatLotId (k / p.wafers_per_lot.toNat + 1) ∧
      ((generate_dataframe p draws).getD k default).wafer_id =
        formatWaferId (k % p.wafers_per_lot.toNat + 1)) ∧
    (∀ k1 k2, k1 < (generate_dataframe p draws).length →
      k2 < (generate_dataframe p draws).length →
      ((generate_dataframe p draws).getD k1 default).lot_id =
        ((generate_dataframe p draws).getD k2 default).lot_id →
      k1 / p.wafers_per_lot.toNat = k2 / p.wafers_per_lot.toNat) ∧
    (∀ k1 k2, k1 < (generate_dataframe p draws).length →
      k2 < (generate_dataframe p draws).length →
      k1 / p.wafers_per_lot.toNat = k2 / p.wafers_per_lot.toNat →
      ((generate_dataframe p draws).getD k1 default).wafer_id =
        ((generate_dataframe p draws).getD k2 default).wafer_id →
      k1 = k2) := by
  have hget := generate_dataframe_getD p draws hw.le hl.le hf.le
  refine ⟨?_, ?_, ?_⟩
  · intro k hk
    rw [hget k hk]
    exact ⟨rfl, rfl⟩
  · intro k1 k2 h1 h2 heq
    rw [hget k1 h1, hget k2 h2] at heq
    have := formatLotId_injective heq
    omega
  · intro k1 k2 h1 h2 hdiv heq
    rw [hget k1 h1, hget k2 h2] at heq
    have hmod : k1 % p.wafers_per_lot.toNat = k2 % p.wafers_per_lot.toNat := by
      have := formatWaferId_injective heq
      omega
    have e1 := Nat.div_add_mod k1 p.wafers_per_lot.toNat
    have e2 := Nat.div_add_mod k2 p.wafers_per_lot.toNat
    calc k1 = p.wafers_per_lot.toNat * (k1 / p.wafers_per_lot.toNat) +
        k1 % p.wafers_per_lot.toNat := e1.symm
      _ = p.wafers_per_lot.toNat * (k2 / p.wafers_per_lot.toNat) +
        k2 % p.wafers_per_lot.toNat := by rw [hdiv, hmod]
      _ = k2 := e2

/-- Parameters for the C8 witness: one week, one lot, two wafers. -/
def pW2 : GenerationParameters := ⟨2025, 1, 1, 2⟩

theorem C8_lot_wafer_id_assignment_witness :
    (0:ℤ) < 1 ∧ (0:ℤ) < 1 ∧ (0:ℤ) < 2 ∧
    ((generate_dataframe pW2 dW).getD 1 default).lot_id =
      formatLotId (1 / (pW2.wafers_per_lot).toNat + 1) ∧
    ((generate_dataframe pW2 dW).getD 1 default).wafer_id =
      formatWaferId (1 % (pW2.wafers_per_lot).toNat + 1) :=
  ⟨by norm_num, by norm_num, by norm_num,
   ((C8_lot_wafer_id_assignment pW2 dW (by norm_num [pW2]) (by norm_num [pW2])
     (by norm_num [pW2])).1 1 (by decide)).1,
   ((C8_lot_wafer_id_assignment pW2 dW (by norm_num [pW2]) (by norm_num [pW2])
     (by norm_num [pW2])).1 1 (by decide)).2⟩

-- structural lemmas for the hierarchical grouping

theorem flatMap_range_nil {α : Type} (n : ℕ) (f : ℕ → List α)
    (h : ∀ i, i < n → f i = []) : (List.range n).flatMap f = [] := by
  induction n with
  | zero => rfl
  | succ n ih =>
    rw [List.range_succ, List.flatMap_append, List.flatMap_cons, List.flatMap_nil,
      List.append_nil, ih (fun i hi => h i (by omega)), h n (by omega)]
    rfl

theorem flatMap_range_single {α : Type} (n k : ℕ) (f : ℕ → List α) (hk : k < n)
    (h : ∀ i, i < n → i ≠ k → f i = []) : (List.range n).flatMap f = f k := by
  induction n with
  | zero => omega
  | succ n ih =>
    rw [List.range_succ, List.flatMap_append, List.flatMap_cons, List.flatMap_nil,
      List.append_nil]
    rcases Nat.lt_or_ge k n with hlt | hge
    · rw [ih hlt (fun i hi hne => h i (by omega) hne), h n (by omega) (by omega),
        List.append_nil]
    · have hkn : k = n := by omega
      subst hkn
      rw [flatMap_range_nil _ _ (fun i hi => h i (by omega) (by omega)),
        List.nil_append]

/-- Filtering a dataset of `W` consecutive blocks of `Q` records down to the
key of block `k0` keeps exactly block `k0`, provided records carry their
block's key and keys are distinct across blocks. -/
theorem filter_key_blocks {κ : Type} [BEq κ] [LawfulBEq κ] (W Q : ℕ)
    (g : ℕ → YieldRecord) (proj : YieldRecord → κ) (key : ℕ → κ)
    (hkey : ∀ k j, j < Q → proj (g (k * Q + j)) = key k)
    (hinj : ∀ k1 k2, key k1 = key k2 → k1 = k2)
    (k0 : ℕ) (hk0 : k0 < W) :
    ((List.range (W * Q)).map g).filter (fun r => proj r == key k0) =
      (List.range Q).map (fun j => g (k0 * Q + j)) := by
  rw [← flatMap_range_map g W Q, List.filter_flatMap]
  have hmain : ∀ i ∈ List.range W,
      ((List.range Q).map (fun j => g (i * Q + j))).filter
          (fun r => proj r == key k0) =
        (if i = k0 then (List.range Q).map (fun j => g (i * Q + j)) else []) := by
    intro i _
    by_cases hik : i = k0
    · subst hik
      rw [if_pos rfl]
      apply List.filter_eq_self.mpr
      intro r hr
      rw [List.mem_map] at hr
      obtain ⟨j, hj, hjr⟩ := hr
      subst hjr
      rw [hkey i j (List.mem_range.mp hj)]
      exact beq_self_eq_true _
    · rw [if_neg hik]
      apply List.filter_eq_nil_iff.mpr
      intro r hr
      rw [List.mem_map] at hr
      obtain ⟨j, hj, hjr⟩ := hr
      subst hjr
      rw [hkey i j (List.mem_range.mp hj)]
      intro hcon
      exact hik (hinj i k0 (eq_of_beq hcon))
  rw [List.flatMap_congr hmain,
    flatMap_range_single W k0 _ hk0 (fun i _ hne => if_neg hne), if_pos rfl]

theorem uniqueFirst_replicate_append (a : String) (rest : List String) :
    ∀ F : ℕ, 0 < F →
      uniqueFirst (List.replicate F a ++ rest) =
        a :: (uniqueFirst rest).filter (fun b => b ≠ a) := by
  intro F
  induction F with
  | zero => omega
  | succ F ih =>
    intro _
    rcases Nat.eq_zero_or_pos F with hF | hF
    · subst hF
      rfl
    · rw [List.replicate_succ, List.cons_append]
      show uniqueFirst (a :: (List.replicate F a ++ rest)) = _
      have hstep : uniqueFirst (a :: (List.replicate F a ++ rest)) =
          a :: (uniqueFirst (List.replicate F a ++ rest)).filter
            (fun b => b ≠ a) := rfl
      rw [hstep, ih hF]
      congr 1
      rw [List.filter_cons]
      rw [if_neg (by simp)]
      rw [List.filter_filter]
      apply List.filter_congr
      intro x _
      exact Bool.and_self _

theorem uniqueFirst_blocks (F : ℕ) (hF : 0 < F) :
    ∀ (M : ℕ) (v : ℕ → String), Function.Injective v →
      uniqueFirst ((List.range M).flatMap (fun l => List.replicate F (v l))) =
        (List.range M).map v := by
  intro M
  induction M with
  | zero => intro v _; rfl
  | succ M ih =>
    intro v hv
    rw [List.range_succ_eq_map, List.flatMap_cons, List.flatMap_map,
      uniqueFirst_replicate_append _ _ F hF]
    simp only [Nat.succ_eq_add_one]
    have hih := ih (fun l => v (l + 1)) (fun a b hab => by
      have h2 := hv hab
      omega)
    rw [hih]
    have hfilter : ((List.range M).map (fun l => v (l + 1))).filter
        (fun b => b ≠ v 0) = (List.range M).map (fun l => v (l + 1)) := by
      apply List.filter_eq_self.mpr
      intro x hx
      rw [List.mem_map] at hx
      obtain ⟨l, _, hlx⟩ := hx
      subst hlx
      simp only [ne_eq, decide_eq_true_eq]
      intro hcon
      have h3 := hv hcon
      omega
    rw [hfilter, List.map_cons, List.map_map]
    rfl

theorem recordAt_week (p : GenerationParameters) (draws : ℕ → ℚ) (k j : ℕ)
    (hj : j < p.lots_per_week.toNat * p.wafers_per_lot.toNat) :
    YieldRecord.week_no (recordAt p draws
      (k * (p.lots_per_week.toNat * p.wafers_per_lot.toNat) + j)) =
      1 + (k : ℤ) := by
  show (1 : ℤ) + (((k * (p.lots_per_week.toNat * p.wafers_per_lot.toNat) + j) /
    (p.lots_per_week.toNat * p.wafers_per_lot.toNat) : ℕ) : ℤ) = 1 + (k : ℤ)
  rw [block_div k j _ hj]

theorem recordAt_lot (p : GenerationParameters) (draws : ℕ → ℚ) (k0 l f : ℕ)
    (hf : f < p.wafers_per_lot.toNat) :
    YieldRecord.lot_id (recordAt p draws
      (k0 * (p.lots_per_week.toNat * p.wafers_per_lot.toNat) +
        (l * p.wafers_per_lot.toNat + f))) =
      formatLotId (k0 * p.lots_per_week.toNat + l + 1) := by
  show formatLotId ((k0 * (p.lots_per_week.toNat * p.wafers_per_lot.toNat) +
    (l * p.wafers_per_lot.toNat + f)) / p.wafers_per_lot.toNat + 1) = _
  congr 1
  rw [show k0 * (p.lots_per_week.toNat * p.wafers_per_lot.toNat) +
    (l * p.wafers_per_lot.toNat + f) =
    (k0 * p.lots_per_week.toNat + l) * p.wafers_per_lot.toNat + f from by ring,
    block_div _ _ _ hf]

/-- C10: for positive parameters the hierarchical result has an exactly
regular shape: `weeksPerYear` week entries carrying week numbers
1..weeksPerYear in order, `lotsPerWeek` lot entries per week, and
`wafersPerLot` wafer records (and `stats.count = wafersPerLot`) per lot. -/
theorem C10_hierarchical_shape (p : GenerationParameters) (draws : ℕ → ℚ)
    (hw : 0 < p.weeks_per_year) (hl : 0 < p.lots_per_week)
    (hf : 0 < p.wafers_per_lot) :
    (generate_boxplot_data p draws).weeks.length = p.weeks_per_year.toNat ∧
    (∀ i, i < (generate_boxplot_data p draws).weeks.length →
      ((generate_boxplot_data p draws).weeks.getD i default).week_no =
        1 + (i : ℤ)) ∧
    (∀ we ∈ (generate_boxplot_data p draws).weeks,
      we.lots.length = p.lots_per_week.toNat ∧
      ∀ le ∈ we.lots,
        le.wafers.length = p.wafers_per_lot.toNat ∧
        le.stats.count = p.wafers_per_lot.toNat) := by
  have hFpos : 0 < p.wafers_per_lot.toNat := by omega
  have hMpos : 0 < p.lots_per_week.toNat := by omega
  have hweeks : (generate_boxplot_data p draws).weeks =
      (pyRange 1 (p.weeks_per_year + 1)).map
        (weekEntryOf (generate_dataframe p draws)) := rfl
  refine ⟨?_, ?_, ?_⟩
  · rw [hweeks, List.length_map, pyRange_length]
    omega
  · intro i hi
    rw [hweeks, List.length_map, pyRange_length] at hi
    rw [hweeks]
    unfold pyRange
    rw [List.map_map, List.getD_eq_get _ _ (by
      rw [List.length_map, List.length_range]; omega), List.get_map,
      List.get_range]
    rfl
  · intro we hwe
    rw [hweeks] at hwe
    rw [List.mem_map] at hwe
    obtain ⟨x, hx, hwe'⟩ := hwe
    unfold pyRange at hx
    rw [List.mem_map] at hx
    obtain ⟨k0, hk0r, hxk⟩ := hx
    rw [List.mem_range] at hk0r
    have hk0 : k0 < p.weeks_per_year.toNat := by omega
    subst hxk
    subst hwe'
    unfold weekEntryOf
    rw [generate_dataframe_eq p draws hw.le hl.le hf.le]
    rw [filter_key_blocks p.weeks_per_year.toNat
      (p.lots_per_week.toNat * p.wafers_per_lot.toNat) (recordAt p draws)
      YieldRecord.week_no (fun k => 1 + (k : ℤ))
      (recordAt_week p draws)
      (fun k1 k2 h => by
        have h2 : (1 : ℤ) + (k1 : ℤ) = 1 + (k2 : ℤ) := h
        omega) k0 hk0]
    have hids : ((List.range
        (p.lots_per_week.toNat * p.wafers_per_lot.toNat)).map
          (fun j => recordAt p draws
            (k0 * (p.lots_per_week.toNat * p.wafers_per_lot.toNat) + j))).map
          (fun r => r.lot_id) =
        (List.range p.lots_per_week.toNat).flatMap
          (fun l => List.replicate p.wafers_per_lot.toNat
            (formatLotId (k0 * p.lots_per_week.toNat + l + 1))) := by
      rw [List.map_map]
      rw [← flatMap_range_map
        ((fun (r : YieldRecord) => r.lot_id) ∘ (fun j => recordAt p draws
          (k0 * (p.lots_per_week.toNat * p.wafers_per_lot.toNat) + j)))
        p.lots_per_week.toNat p.wafers_per_lot.toNat]
      apply List.flatMap_congr
      intro l _
      apply List.eq_replicate_iff.mpr
      constructor
      · rw [List.length_map, List.length_range]
      · intro b hb
        rw [List.mem_map] at hb
        obtain ⟨f, hfr, hfb⟩ := hb
        subst hfb
        exact recordAt_lot p draws k0 l f (List.mem_range.mp hfr)
    rw [hids, uniqueFirst_blocks p.wafers_per_lot.toNat hFpos
      p.lots_per_week.toNat
      (fun l => formatLotId (k0 * p.lots_per_week.toNat + l + 1))
      (fun a b hab => by
        have h2 := formatLotId_injective hab
        omega)]
    constructor
    · rw [List.length_map, List.length_map, List.length_range]
    · intro le hle
      rw [List.map_map, List.mem_map] at hle
      obtain ⟨l0, hl0r, hle'⟩ := hle
      rw [List.mem_range] at hl0r
      subst hle'
      unfold lotEntryOf
      simp only [Function.comp_apply]
      rw [filter_key_blocks p.lots_per_week.toNat p.wafers_per_lot.toNat
        (fun j => recordAt p draws
          (k0 * (p.lots_per_week.toNat * p.wafers_per_lot.toNat) + j))
        YieldRecord.lot_id
        (fun l => formatLotId (k0 * p.lots_per_week.toNat + l + 1))
        (fun l f hfr => recordAt_lot p draws k0 l f hfr)
        (fun l1 l2 h => by
          have h2 := formatLotId_injective h
          omega) l0 hl0r]
      constructor
      · rw [List.length_map, List.length_map, List.length_range]
      · unfold lotStats
        dsimp only
        rw [List.length_map, List.length_map, List.length_range]

theorem C10_hierarchical_shape_witness :
    (0:ℤ) < 1 ∧
    (generate_boxplot_data pW dW).weeks.length = pW.weeks_per_year.toNat ∧
    ((generate_boxplot_data pW dW).weeks.getD 0 default).week_no =
      1 + ((0:ℕ) : ℤ) ∧
    (weekEntryOf (generate_dataframe pW dW) 1).lots.length =
      pW.lots_per_week.toNat ∧
    (lotEntryOf ((generate_dataframe pW dW).filter (fun r => r.week_no == 1))
        (formatLotId 1)).wafers.length = pW.wafers_per_lot.toNat ∧
    (lotEntryOf ((generate_dataframe pW dW).filter (fun r => r.week_no == 1))
        (formatLotId 1)).stats.count = pW.wafers_per_lot.toNat := by
  have h := C10_hierarchical_shape pW dW (by norm_num [pW]) (by norm_num [pW])
    (by norm_num [pW])
  have hwe : weekEntryOf (generate_dataframe pW dW) 1 ∈
      (generate_boxplot_data pW dW).weeks :=
    List.mem_map_of_mem _ (by decide)
  have hle : lotEntryOf ((generate_dataframe pW dW).filter
        (fun r => r.week_no == 1)) (formatLotId 1) ∈
      (weekEntryOf (generate_dataframe pW dW) 1).lots :=
    List.mem_map_of_mem _ (by decide)
  have h3 := h.2.2 _ hwe
  have h4 := h3.2 _ hle
  exact ⟨by norm_num, h.1, h.2.1 0 (by rw [h.1]; decide), h3.1, h4.1, h4.2⟩
